import Mathlib

/-!
Verification of the dwarfs metadata-v2 core (src/dwarfs/metadata_v2.cpp).

The frozen thrift record is embedded shallowly: each interned table of the
metadata record becomes a Lean list, an entry view becomes a structure with
the three fields the source reads (name_index, mode, inode), and every member
function of metadata_v2_ that the claims touch becomes a Lean function that
mirrors the C++ statement by statement.

Modelling conventions:
- byte strings (names, link targets, paths) are lists of Nat (byte values);
  comparison is byte-wise, as in std::string_view.
- frozen table indexing (operator[] on a frozen list view) performs no bounds
  check in the source; in-bounds reads are modelled with List.getD.  The one
  place a claim is about an out-of-bounds read (the directories table inside
  path resolution) uses List.get? so that the read outside the table is
  observable as Except.error.
- loops are modelled with an explicit fuel argument that is always at least
  the number of iterations the C++ loop performs, so the functions stay
  structurally recursive and computable by the kernel.
- std::lower_bound is modelled as the halving algorithm used by both
  libstdc++ and libc++, with the comparator taken verbatim from the source:
  the int returned by string_view::compare is converted to bool, so the
  predicate is "names differ", not "name is less".
-/

namespace DwarfsMeta

/-- POSIX mode-word constants from sys/stat.h, as used by the source. -/
def S_IFMT : Nat := 0o170000

/-- Regular-file type bits. -/
def S_IFREG : Nat := 0o100000

/-- Directory type bits. -/
def S_IFDIR : Nat := 0o040000

/-- Symlink type bits. -/
def S_IFLNK : Nat := 0o120000

/-- Set-user-id bit. -/
def S_ISUID : Nat := 0o4000

/-- Set-group-id bit. -/
def S_ISGID : Nat := 0o2000

/-- Sticky bit. -/
def S_ISVTX : Nat := 0o1000

/-- Owner read bit. -/
def S_IRUSR : Nat := 0o400

/-- Owner write bit. -/
def S_IWUSR : Nat := 0o200

/-- Owner execute bit. -/
def S_IXUSR : Nat := 0o100

/-- Group read bit. -/
def S_IRGRP : Nat := 0o40

/-- Group write bit. -/
def S_IWGRP : Nat := 0o20

/-- Group execute bit. -/
def S_IXGRP : Nat := 0o10

/-- Other read bit. -/
def S_IROTH : Nat := 0o4

/-- Other write bit. -/
def S_IWOTH : Nat := 0o2

/-- Other execute bit. -/
def S_IXOTH : Nat := 0o1

/-- S_ISDIR(m) is ((m & S_IFMT) == S_IFDIR). -/
def S_ISDIR (m : Nat) : Bool := (m &&& S_IFMT) == S_IFDIR

/-- S_ISREG(m) is ((m & S_IFMT) == S_IFREG). -/
def S_ISREG (m : Nat) : Bool := (m &&& S_IFMT) == S_IFREG

/-- S_ISLNK(m) is ((m & S_IFMT) == S_IFLNK). -/
def S_ISLNK (m : Nat) : Bool := (m &&& S_IFMT) == S_IFLNK

/-- READ_ONLY_MASK = (uint16_t)~(S_IWUSR | S_IWGRP | S_IWOTH)
(metadata_v2.cpp line 43): the complement is taken in 16 bits. -/
def READ_ONLY_MASK : Nat := 0xFFFF ^^^ (S_IWUSR ||| S_IWGRP ||| S_IWOTH)

/-- An entry view: the three thrift fields the source reads.  The mode field
is an index into the modes table (the accessor entry.mode() of the source),
not the mode word itself. -/
structure Entry where
  name_index : Nat
  mode : Nat
  inode : Nat
  deriving DecidableEq

/-- A directory view: first_entry() and entry_count() of the source. -/
structure DirEnt where
  first_entry : Nat
  entry_count : Nat
  deriving DecidableEq

/-- A chunk record: (block, offset, size); only size is read by the
metadata core. -/
structure Chunk where
  block : Nat
  offset : Nat
  size : Nat
  deriving DecidableEq

/-- The decoded metadata record: the interned tables plus the two offset
constants carried by the thrift metadata struct. -/
structure Metadata where
  entries : List Entry
  names : List (List Nat)
  modes : List Nat
  directories : List DirEnt
  entry_index : List Nat
  links : List (List Nat)
  link_index : List Nat
  link_index_offset : Nat
  chunks : List Chunk
  chunk_index : List Nat
  chunk_index_offset : Nat
  deriving DecidableEq

/-- Default entry used to totalize in-bounds frozen reads (never reached on
the concrete records below). -/
def defaultEntry : Entry := ⟨0, 0, 0⟩

/-- Default directory view used to totalize in-bounds frozen reads. -/
def defaultDir : DirEnt := ⟨0, 0⟩

/-- Default chunk used to totalize in-bounds frozen reads. -/
def defaultChunk : Chunk := ⟨0, 0, 0⟩

/-- entry_name(entry) = meta_.names()[entry.name_index()] (line 163). -/
def entry_name (m : Metadata) (e : Entry) : List Nat :=
  m.names.getD e.name_index []

/-- entry_mode(entry) = meta_.modes()[entry.mode()] (line 159). -/
def entry_mode (m : Metadata) (e : Entry) : Nat :=
  m.modes.getD e.mode 0

/-- link_name(entry) =
meta_.links()[meta_.link_index()[entry.inode()] - meta_.link_index_offset()]
(line 167). -/
def link_name (m : Metadata) (e : Entry) : List Nat :=
  m.links.getD (m.link_index.getD e.inode 0 - m.link_index_offset) []

/-- root_ = meta_.entries()[meta_.entry_index()[0]] (constructor, line 57). -/
def rootEntry (m : Metadata) : Entry :=
  m.entries.getD (m.entry_index.getD 0 0) defaultEntry

/-- Three-way byte-wise comparison, the semantics of
std::string_view::compare: negative, zero or positive according to the
lexicographic order of the byte sequences. -/
def svCompare : List Nat → List Nat → Int
  | [], [] => 0
  | [], _ :: _ => -1
  | _ :: _, [] => 1
  | a :: as, b :: bs =>
      if a < b then -1 else if b < a then 1 else svCompare as bs

/-- The halving loop of std::lower_bound (identical in libstdc++ and
libc++): while len > 0, probe first + len/2; if the comparator holds there,
continue right of the probe, else shrink to the left half.  The fuel
argument starts at the initial len; len strictly decreases every iteration,
so fuel never runs out before len reaches 0, and at fuel 0 the len is 0 and
first is the answer. -/
def lowerBoundGo (pred : Nat → Bool) : Nat → Nat → Nat → Nat
  | 0, first, _ => first
  | fuel + 1, first, len =>
      if len = 0 then first
      else
        let half := len / 2
        if pred (first + half) then
          lowerBoundGo pred fuel (first + half + 1) (len - half - 1)
        else
          lowerBoundGo pred fuel first half

/-- std::lower_bound over the index range [first, first + len). -/
def lowerBound (pred : Nat → Bool) (first len : Nat) : Nat :=
  lowerBoundGo pred len first len

/-- find(directory_view dir, std::string_view name) (lines 275-298): binary
search over boost::irange(first, first + entry_count) with the comparator
written in the source, which returns entry_name(...).compare(name) — an int
implicitly converted to bool, hence true exactly when the names differ.  If
the returned iterator is not range.end() and the candidate name equals name,
the candidate is returned. -/
def findInDir (m : Metadata) (dir : DirEnt) (name : List Nat) : Option Entry :=
  let first := dir.first_entry
  let it := lowerBound
    (fun i => svCompare (entry_name m (m.entries.getD i defaultEntry)) name != 0)
    first dir.entry_count
  if it != first + dir.entry_count then
    let cand := m.entries.getD it defaultEntry
    if entry_name m cand == name then some cand else none
  else none

/-- The while loop of find(const char* path) (lines 309-320).  One call per
loop iteration: seg is the bytes up to the next slash (byte 47), exactly
std::string_view(path, clen); the directories-table read of
getdir(*entry) = meta_.directories()[entry.inode()] is performed with no
bounds check in the source, so an out-of-range inode (a non-directory entry)
is an out-of-bounds read, modelled as Except.error.  After a successful
lookup the path advances past the slash when one was found (next + 1), else
to its end.  The fuel argument bounds the number of iterations; the caller
passes length + 1, which the loop can never exhaust since the remaining path
shrinks every iteration; the fuel-0 result mirrors loop exit. -/
def pathLoop (m : Metadata) : Nat → Entry → List Nat → Except Unit (Option Entry)
  | 0, e, _ => .ok (some e)
  | _ + 1, e, [] => .ok (some e)
  | fuel + 1, e, c :: cs =>
      match m.directories.get? e.inode with
      | none => .error ()
      | some d =>
          match findInDir m d ((c :: cs).takeWhile (fun b => b != 47)) with
          | none => .ok none
          | some e2 =>
              match (c :: cs).dropWhile (fun b => b != 47) with
              | [] => .ok (some e2)
              | _ :: rest => pathLoop m fuel e2 rest

/-- find(const char* path) (lines 300-323): consume leading slashes, start
at the cached root entry, then run the segment loop. -/
def findPath (m : Metadata) (path : List Nat) : Except Unit (Option Entry) :=
  pathLoop m ((path.dropWhile (fun b => b == 47)).length + 1) (rootEntry m)
    (path.dropWhile (fun b => b == 47))

/-- get_entry(int inode) (lines 150-157): subtract the inode offset, check
0 <= inode < entry_index.size(), and return
entries[entry_index[inode]]. -/
def get_entry (m : Metadata) (inode_offset : Int) (inode : Int) : Option Entry :=
  let i := inode - inode_offset
  if 0 ≤ i ∧ i < (m.entry_index.length : Int) then
    some (m.entries.getD (m.entry_index.getD i.toNat 0) defaultEntry)
  else none

/-- find(int inode) (lines 325-328) forwards to get_entry. -/
def findByInode (m : Metadata) (inode_offset : Int) (inode : Int) : Option Entry :=
  get_entry m inode_offset inode

/-- The summation loop of reg_file_size (lines 125-127): while cur < e the
size of chunks[cur] is accumulated.  Fuel is e - cur, the exact number of
additions the loop performs. -/
def sumChunksLoop (m : Metadata) (e : Nat) : Nat → Nat → Nat
  | 0, _ => 0
  | fuel + 1, cur =>
      if cur < e then (m.chunks.getD cur defaultChunk).size + sumChunksLoop m e fuel (cur + 1)
      else 0

/-- reg_file_size(entry) (lines 120-129): inode = entry.inode() -
chunk_index_offset_; sum chunk sizes over
[chunk_index[inode], chunk_index[inode + 1]). -/
def reg_file_size (m : Metadata) (e : Entry) : Nat :=
  let inode := e.inode - m.chunk_index_offset
  let cur := m.chunk_index.getD inode 0
  let e2 := m.chunk_index.getD (inode + 1) 0
  sumChunksLoop m e2 (e2 - cur) cur

/-- link_size(entry) (line 131): byte length of link_name(entry). -/
def link_size (m : Metadata) (e : Entry) : Nat :=
  (link_name m e).length

/-- file_size(entry, mode) (lines 133-141): regular files use
reg_file_size, symlinks use link_size, everything else is 0. -/
def file_size (m : Metadata) (e : Entry) (mode : Nat) : Nat :=
  if S_ISREG mode then reg_file_size m e
  else if S_ISLNK mode then link_size m e
  else 0

/-- The POSIX stat record fields the source touches; the memset of getattr
zeroes every field first. -/
structure StatBuf where
  st_mode : Nat
  st_size : Nat
  st_ino : Int
  st_blocks : Nat
  st_uid : Nat
  st_gid : Nat
  st_nlink : Nat
  st_atime : Int
  st_mtime : Int
  st_ctime : Int
  deriving DecidableEq

/-- The all-zero stat record produced by memset. -/
def zeroStat : StatBuf := ⟨0, 0, 0, 0, 0, 0, 0, 0, 0, 0⟩

/-- getattr(entry, stbuf) (lines 343-361): memset the buffer to zero, fetch
the mode word, then set st_mode (masked read-only), st_size, st_ino and
st_blocks; every other field keeps its zero.  Returns 0. -/
def getattr (m : Metadata) (inode_offset : Int) (e : Entry) : Int × StatBuf :=
  let mode := entry_mode m e
  let sz := file_size m e mode
  (0, { zeroStat with
          st_mode := mode &&& READ_ONLY_MASK
          st_size := sz
          st_ino := (e.inode : Int) + inode_offset
          st_blocks := (sz + 511) / 512 })

/-- getdir(entry) = meta_.directories()[entry.inode()] (line 143), totalized
with the default for the walk model (the walk claims below only exercise
in-bounds reads or none at all). -/
def getdir (m : Metadata) (e : Entry) : DirEnt :=
  m.directories.getD e.inode defaultDir

/-- walk(entry, func) (lines 255-267) as the list of entries the visitor is
invoked on, in invocation order: visit the entry, and if
S_ISDIR(entry.mode()) — the raw mode-index field, exactly as line 259 writes
it — recurse over entries[first_entry .. first_entry + entry_count).  Fuel
bounds the recursion depth; the concrete records below are trees of depth
far below the fuel supplied. -/
def walkGo (m : Metadata) : Nat → Entry → List Entry
  | 0, _ => []
  | fuel + 1, e =>
      e :: (if S_ISDIR e.mode then
              ((List.range (getdir m e).entry_count).map
                (fun k => walkGo m fuel
                  (m.entries.getD ((getdir m e).first_entry + k) defaultEntry))).flatten
            else [])

/-- walk(func) (lines 269-273): start at the cached root. -/
def walk (m : Metadata) (fuel : Nat) : List Entry :=
  walkGo m fuel (rootEntry m)

/-- modestring(mode) (lines 234-253): the thirteen characters pushed onto
the stream, in order. -/
def modestring (mode : Nat) : List Char :=
  [ if mode &&& S_ISUID != 0 then 'U' else '-',
    if mode &&& S_ISGID != 0 then 'G' else '-',
    if mode &&& S_ISVTX != 0 then 'S' else '-',
    if S_ISDIR mode then 'd' else if S_ISLNK mode then 'l' else '-',
    if mode &&& S_IRUSR != 0 then 'r' else '-',
    if mode &&& S_IWUSR != 0 then 'w' else '-',
    if mode &&& S_IXUSR != 0 then 'x' else '-',
    if mode &&& S_IRGRP != 0 then 'r' else '-',
    if mode &&& S_IWGRP != 0 then 'w' else '-',
    if mode &&& S_IXGRP != 0 then 'x' else '-',
    if mode &&& S_IROTH != 0 then 'r' else '-',
    if mode &&& S_IWOTH != 0 then 'w' else '-',
    if mode &&& S_IXOTH != 0 then 'x' else '-' ]

/-- Open-time error taxonomy of the specification. -/
inductive OpenError where
  | malformedRecord
  | unsupportedVersion
  | truncated
  deriving DecidableEq

/-- The record handle the constructor builds: the mapped record plus the
cached root entry and offsets. -/
structure Handle where
  meta : Metadata
  root : Entry
  inode_offset : Int
  chunk_index_offset : Nat
  deriving DecidableEq

/-- The metadata_v2_ constructor (lines 52-69) on an already-decoded record:
it stores the buffer, maps it (the schema-level decode is the external
frozen library and is not repository code; its input here is the decoded
table record), caches root_ = entries[entry_index[0]], inode_offset_ and
chunk_index_offset_, and performs no validation of table contents: no check
relates any directory range to the entries table. -/
def openRecord (m : Metadata) (inode_offset : Int) : Except OpenError Handle :=
  .ok ⟨m, rootEntry m, inode_offset, m.chunk_index_offset⟩

/-!
Concrete records used as inputs.  Each is well-formed in the sense of the
specification: entry_index[0] is the root, directory children are contiguous
and strictly sorted ascending by byte-wise name, and the inode ranges of
directories, regular files and symlinks are disjoint.
-/

/-- A record whose root directory (inode 0) holds three empty regular files
named a, b, c (bytes 97, 98, 99), stored sorted.  Directories occupy inode 0,
regular files inodes 1-3 (chunk_index_offset 1, all chunk ranges empty). -/
def sampleABC : Metadata :=
  { entries := [⟨0, 0, 0⟩, ⟨1, 1, 1⟩, ⟨2, 1, 2⟩, ⟨3, 1, 3⟩]
    names := [[], [97], [98], [99]]
    modes := [0o40755, 0o100644]
    directories := [⟨1, 3⟩]
    entry_index := [0, 1, 2, 3]
    links := []
    link_index := []
    link_index_offset := 0
    chunks := []
    chunk_index := [0, 0, 0, 0]
    chunk_index_offset := 1 }

/-- A record with root -> directory a (inode 1) -> regular file b (inode 2).
Directories occupy inodes 0-1, the regular file inode 2. -/
def sampleAB : Metadata :=
  { entries := [⟨0, 0, 0⟩, ⟨1, 0, 1⟩, ⟨2, 1, 2⟩]
    names := [[], [97], [98]]
    modes := [0o40755, 0o100644]
    directories := [⟨1, 1⟩, ⟨2, 1⟩]
    entry_index := [0, 1, 2]
    links := []
    link_index := []
    link_index_offset := 0
    chunks := []
    chunk_index := [0, 0]
    chunk_index_offset := 2 }

/-- A record with root -> regular file a (inode 1): the directories table
has exactly one element, so the inode of a is outside it. -/
def sampleFile : Metadata :=
  { entries := [⟨0, 0, 0⟩, ⟨1, 1, 1⟩]
    names := [[], [97]]
    modes := [0o40755, 0o100644]
    directories := [⟨1, 1⟩]
    entry_index := [0, 1]
    links := []
    link_index := []
    link_index_offset := 0
    chunks := []
    chunk_index := [0, 0]
    chunk_index_offset := 1 }

/-- A record with root -> regular file big (inode 1) whose three chunks have
sizes 4096, 4096 and 17. -/
def sampleBig : Metadata :=
  { entries := [⟨0, 0, 0⟩, ⟨1, 1, 1⟩]
    names := [[], [98, 105, 103]]
    modes := [0o40755, 0o100644]
    directories := [⟨1, 1⟩]
    entry_index := [0, 1]
    links := []
    link_index := []
    link_index_offset := 0
    chunks := [⟨0, 0, 4096⟩, ⟨0, 4096, 4096⟩, ⟨1, 0, 17⟩]
    chunk_index := [0, 3]
    chunk_index_offset := 1 }

/-- A record that is structurally decodable but internally inconsistent:
its single directory claims children [5, 15) while the entries table has
only one element. -/
def sampleBadDir : Metadata :=
  { entries := [⟨0, 0, 0⟩]
    names := [[]]
    modes := [0o40755]
    directories := [⟨5, 10⟩]
    entry_index := [0]
    links := []
    link_index := []
    link_index_offset := 0
    chunks := []
    chunk_index := [0]
    chunk_index_offset := 1 }

/-!
Claim C1: directory lookup by binary search.
-/

/-- C1: in sampleABC the root directory view stored at directories[0] is
⟨1, 3⟩, its three children entries[1], entries[2], entries[3] carry the
strictly ascending byte-wise names a < b < c, and the first child is named
[97]; yet the lookup returns none for [97].  The lower_bound comparator of
the source (line 284) returns the int of string_view::compare converted to
bool — "names differ" — instead of "name is less", so the binary search
walks past the matching child whenever the probe sequence does not land on
it exactly. -/
theorem C1_find_misses_present_child :
    sampleABC.directories.getD 0 defaultDir = ⟨1, 3⟩ ∧
    entry_name sampleABC (sampleABC.entries.getD 1 defaultEntry) = [97] ∧
    svCompare (entry_name sampleABC (sampleABC.entries.getD 1 defaultEntry))
      (entry_name sampleABC (sampleABC.entries.getD 2 defaultEntry)) < 0 ∧
    svCompare (entry_name sampleABC (sampleABC.entries.getD 2 defaultEntry))
      (entry_name sampleABC (sampleABC.entries.getD 3 defaultEntry)) < 0 ∧
    findInDir sampleABC ⟨1, 3⟩ [97] = none :=
  ⟨rfl, rfl, by decide, by decide, by decide⟩

/-!
Claim C3: non-directory in the middle of a path.
-/

/-- C3: in sampleFile the path /a/b resolves its first segment to the
regular file a (inode 1, mode word without the directory bit); find then
evaluates getdir on it with no directory check (line 313), reading
directories[1] outside the one-element directories table — modelled as
Except.error — instead of returning the "not found" the claim requires. -/
theorem C3_nondir_segment_reads_outside_table :
    S_ISDIR (entry_mode sampleFile (sampleFile.entries.getD 1 defaultEntry)) = false ∧
    sampleFile.directories.get? 1 = none ∧
    findPath sampleFile [47, 97, 47, 98] = .error () :=
  ⟨by decide, rfl, rfl⟩

/-!
Claim C4: walk completeness.
-/

/-- C4: on sampleABC — whose root is a directory by its mode word and whose
entry-index has four entries — walk invokes the visitor exactly once, on the
root only.  Line 259 tests S_ISDIR on the raw mode-index field
entry.mode() instead of the mode word entry_mode(entry), so the recursion
into children never fires for records whose mode indices are small. -/
theorem C4_walk_visits_only_root :
    walk sampleABC 10 = [⟨0, 0, 0⟩] ∧
    (walk sampleABC 10).length = 1 ∧
    sampleABC.entry_index.length = 4 ∧
    S_ISDIR (entry_mode sampleABC (rootEntry sampleABC)) = true :=
  ⟨by decide, by decide, by decide, by decide⟩

/-!
Claim C5: open-time validation.
-/

/-- C5 counterexample: sampleBadDir declares a directory whose
first_entry + entry_count = 15 exceeds its one-element entries table, yet
opening it succeeds: the constructor performs no consistency validation of
table contents, so no MalformedRecord failure occurs. -/
theorem C5_counterexample :
    (sampleBadDir.directories.getD 0 defaultDir).first_entry +
        (sampleBadDir.directories.getD 0 defaultDir).entry_count >
      sampleBadDir.entries.length ∧
    openRecord sampleBadDir 0 = .ok ⟨sampleBadDir, ⟨0, 0, 0⟩, 0, 1⟩ :=
  ⟨by decide, rfl⟩

/-- C5 amended: open performs no content-level validation at all: for every
decoded record and inode offset it succeeds, caching the root entry and the
two offsets; inconsistent directory extents are not detected at open time. -/
theorem C5_open_never_validates (m : Metadata) (inode_offset : Int) :
    openRecord m inode_offset =
      .ok ⟨m, rootEntry m, inode_offset, m.chunk_index_offset⟩ :=
  rfl

/-!
Claim C9: the mode string.
-/

/-- C9 counterexample: the mode string rendered for mode word 0 does not
have 12 characters. -/
theorem C9_counterexample : ¬ (modestring 0).length = 12 := by decide

/-- C9 amended: for every mode word the rendered mode string has exactly 13
characters: one each for setuid, setgid, sticky and type, followed by the
nine characters of the three rwx triples. -/
theorem C9_modestring_length (mode : Nat) : (modestring mode).length = 13 :=
  rfl

/-!
Claim C6: getattr.
-/

/-- C6: getattr zeroes the output record (owner, group, link count and the
three timestamps remain 0), sets st_mode to the mode word masked by
READ_ONLY_MASK — so the three write bits of the result are cleared, while
the mode word stored in the (immutable) record is untouched — sets st_size
from file_size, st_ino to inode plus the inode offset, and st_blocks to the
ceiling of size / 512 (the least k with size ≤ 512 k); the returned status
is 0 for every entry of every record. -/
theorem C6_getattr_spec (m : Metadata) (inode_offset : Int) (e : Entry) :
    (getattr m inode_offset e).1 = 0 ∧
    (getattr m inode_offset e).2.st_mode = entry_mode m e &&& READ_ONLY_MASK ∧
    (getattr m inode_offset e).2.st_mode &&& (S_IWUSR ||| S_IWGRP ||| S_IWOTH) = 0 ∧
    (getattr m inode_offset e).2.st_size = file_size m e (entry_mode m e) ∧
    (getattr m inode_offset e).2.st_ino = (e.inode : Int) + inode_offset ∧
    ((getattr m inode_offset e).2.st_size ≤ 512 * (getattr m inode_offset e).2.st_blocks ∧
      512 * (getattr m inode_offset e).2.st_blocks < (getattr m inode_offset e).2.st_size + 512) ∧
    (getattr m inode_offset e).2.st_uid = 0 ∧
    (getattr m inode_offset e).2.st_gid = 0 ∧
    (getattr m inode_offset e).2.st_nlink = 0 ∧
    (getattr m inode_offset e).2.st_atime = 0 ∧
    (getattr m inode_offset e).2.st_mtime = 0 ∧
    (getattr m inode_offset e).2.st_ctime = 0 := by
  refine ⟨rfl, rfl, ?_, rfl, rfl, ?_, rfl, rfl, rfl, rfl, rfl, rfl⟩
  · show entry_mode m e &&& READ_ONLY_MASK &&& (S_IWUSR ||| S_IWGRP ||| S_IWOTH) = 0
    rw [Nat.and_assoc]
    have h : READ_ONLY_MASK &&& (S_IWUSR ||| S_IWGRP ||| S_IWOTH) = 0 := by decide
    rw [h, Nat.and_zero]
  · show file_size m e (entry_mode m e) ≤ 512 * ((file_size m e (entry_mode m e) + 511) / 512) ∧
      512 * ((file_size m e (entry_mode m e) + 511) / 512) < file_size m e (entry_mode m e) + 512
    omega

/-!
Claim C7: file sizes.
-/

/-- The chunk summation loop of reg_file_size computes the sum of the chunk
sizes over the half-open index range [cur, cur + k). -/
theorem sumChunksLoop_eq (m : Metadata) :
    ∀ (k cur : Nat),
      sumChunksLoop m (cur + k) k cur =
        ((List.range k).map (fun j => (m.chunks.getD (cur + j) defaultChunk).size)).sum := by
  intro k
  induction k with
  | zero => intro cur; rfl
  | succ n ih =>
    intro cur
    have hlt : cur < cur + (n + 1) := by omega
    simp only [sumChunksLoop, if_pos hlt]
    rw [List.range_succ_eq_map]
    simp only [List.map_cons, List.map_map, List.sum_cons, Nat.add_zero]
    have harg : (cur + (n + 1)) = (cur + 1) + n := by omega
    rw [harg, ih (cur + 1)]
    refine congrArg (fun t => (m.chunks.getD cur defaultChunk).size + t)
      (congrArg (List.sum : List Nat → Nat) (List.map_congr_left ?_))
    intro j _
    show (m.chunks.getD (cur + 1 + j) defaultChunk).size =
      (m.chunks.getD (cur + Nat.succ j) defaultChunk).size
    have hj : cur + 1 + j = cur + Nat.succ j := by omega
    rw [hj]

/-- C7: file_size dispatches on the mode word: for a regular file it is the
sum of chunks[j].size over j in
[chunk_index[inode - chunk_index_offset], chunk_index[inode - chunk_index_offset + 1]);
for a symlink it is the byte length of the link target; for a directory or
any other type it is 0.  In particular the regular file of sampleBig with
chunks of sizes 4096, 4096 and 17 has size 8209. -/
theorem C7_size_law (m : Metadata) (e : Entry) (mode : Nat) :
    (S_ISREG mode = true → m.chunk_index_offset ≤ e.inode →
      file_size m e mode =
        ((List.range (m.chunk_index.getD (e.inode - m.chunk_index_offset + 1) 0 -
            m.chunk_index.getD (e.inode - m.chunk_index_offset) 0)).map
          (fun j => (m.chunks.getD
            (m.chunk_index.getD (e.inode - m.chunk_index_offset) 0 + j) defaultChunk).size)).sum) ∧
    (S_ISLNK mode = true → file_size m e mode = (link_name m e).length) ∧
    (S_ISREG mode = false → S_ISLNK mode = false → file_size m e mode = 0) ∧
    file_size sampleBig ⟨1, 1, 1⟩ 0o100644 = 8209 := by
  refine ⟨?_, ?_, ?_, by decide⟩
  · intro hreg _
    simp only [file_size, hreg, if_pos]
    show reg_file_size m e = _
    show sumChunksLoop m
        (m.chunk_index.getD (e.inode - m.chunk_index_offset + 1) 0)
        (m.chunk_index.getD (e.inode - m.chunk_index_offset + 1) 0 -
          m.chunk_index.getD (e.inode - m.chunk_index_offset) 0)
        (m.chunk_index.getD (e.inode - m.chunk_index_offset) 0) = _
    generalize m.chunk_index.getD (e.inode - m.chunk_index_offset) 0 = b
    generalize m.chunk_index.getD (e.inode - m.chunk_index_offset + 1) 0 = e2
    rcases Nat.le_total b e2 with hle | hle
    · obtain ⟨k, rfl⟩ : ∃ k, e2 = b + k := ⟨e2 - b, by omega⟩
      rw [Nat.add_sub_cancel_left]
      exact sumChunksLoop_eq m k b
    · have h0 : e2 - b = 0 := by omega
      rw [h0]
      rfl
  · intro hlnk
    unfold file_size
    cases hreg : S_ISREG mode with
    | true =>
      exfalso
      simp only [S_ISREG, beq_iff_eq] at hreg
      simp only [S_ISLNK, beq_iff_eq] at hlnk
      rw [hreg] at hlnk
      simp [S_IFREG, S_IFLNK] at hlnk
    | false =>
      simp [hlnk, link_size]
  · intro hreg hlnk
    simp [file_size, hreg, hlnk]

/-- C7 witness: the regular-file branch of C7_size_law evaluated on
sampleBig, together with the concrete 8209 total. -/
theorem C7_size_law_witness :
    file_size sampleBig ⟨1, 1, 1⟩ 33188 =
      ((List.range (sampleBig.chunk_index.getD (1 - sampleBig.chunk_index_offset + 1) 0 -
          sampleBig.chunk_index.getD (1 - sampleBig.chunk_index_offset) 0)).map
        (fun j => (sampleBig.chunks.getD
          (sampleBig.chunk_index.getD (1 - sampleBig.chunk_index_offset) 0 + j)
          defaultChunk).size)).sum ∧
    file_size sampleBig ⟨1, 1, 1⟩ 0o100644 = 8209 :=
  ⟨(C7_size_law sampleBig ⟨1, 1, 1⟩ 33188).1 (by decide) (by decide),
   (C7_size_law sampleBig ⟨1, 1, 1⟩ 33188).2.2.2⟩

/-!
Claim C8: inode lookup.
-/

/-- C8: find_by_inode subtracts the inode offset and range-checks against
the entry-index size: it returns entries[entry_index[i - inode_offset]]
exactly when 0 ≤ i - inode_offset < entry-index size and none otherwise;
find_by_inode(inode_offset + 0) is the root entry whenever the entry-index
is nonempty, and find_by_inode(-1) is none whenever inode_offset ≥ 0. -/
theorem C8_find_by_inode_spec (m : Metadata) (inode_offset i : Int) :
    findByInode m inode_offset i =
      (if 0 ≤ i - inode_offset ∧ i - inode_offset < (m.entry_index.length : Int) then
        some (m.entries.getD (m.entry_index.getD (i - inode_offset).toNat 0) defaultEntry)
      else none) ∧
    (0 < m.entry_index.length →
      findByInode m inode_offset (inode_offset + 0) = some (rootEntry m)) ∧
    (0 ≤ inode_offset → findByInode m inode_offset (-1) = none) := by
  refine ⟨rfl, ?_, ?_⟩
  · intro h
    have h0 : inode_offset + 0 - inode_offset = (0 : Int) := by ring
    show get_entry m inode_offset (inode_offset + 0) = some (rootEntry m)
    unfold get_entry
    rw [h0]
    rw [if_pos ⟨le_refl 0, by exact_mod_cast h⟩]
    rfl
  · intro h
    show get_entry m inode_offset (-1) = none
    unfold get_entry
    rw [if_neg]
    intro hc
    have := hc.1
    omega

/-- C8 witness: the two conditional parts of C8_find_by_inode_spec
evaluated on sampleAB with inode offset 0. -/
theorem C8_find_by_inode_witness :
    findByInode sampleAB 0 (0 + 0) = some (rootEntry sampleAB) ∧
    findByInode sampleAB 0 (-1) = none :=
  ⟨(C8_find_by_inode_spec sampleAB 0 0).2.1 (by decide),
   (C8_find_by_inode_spec sampleAB 0 0).2.2 (by decide)⟩

/-!
Claim C10: all-slash paths.
-/

/-- C10: for every record, a path consisting only of slash bytes — the
empty path included — is entirely consumed by the leading-slash loop, the
segment loop never runs, and find returns the cached root entry
entries[entry_index[0]]. -/
theorem C10_slash_only_paths_return_root (m : Metadata) (p : List Nat)
    (h : ∀ c ∈ p, c = 47) :
    findPath m p = .ok (some (rootEntry m)) := by
  have hd : p.dropWhile (fun b => b == 47) = [] := by
    rw [List.dropWhile_eq_nil_iff]
    intro x hx
    simp [h x hx]
  unfold findPath
  rw [hd]
  rfl

/-- C10 witness: the all-slash path of three slashes on sampleAB. -/
theorem C10_witness :
    findPath sampleAB [47, 47, 47] = .ok (some (rootEntry sampleAB)) :=
  C10_slash_only_paths_return_root sampleAB [47, 47, 47] (by decide)

/-!
Claim C2: slash handling in find(const char*).  Helper lemmas about
takeWhile and dropWhile over an appended byte, then fuel irrelevance and
the trailing-slash property of the segment loop.
-/

/-- A list all of whose elements satisfy the predicate is its own takeWhile
and has empty dropWhile. -/
theorem takeWhile_of_all (pr : Nat → Bool) :
    ∀ l : List Nat, l.all pr = true → l.takeWhile pr = l ∧ l.dropWhile pr = [] := by
  intro l
  induction l with
  | nil => intro _; exact ⟨rfl, rfl⟩
  | cons c cs ih =>
    intro h
    rw [List.all_cons, Bool.and_eq_true] at h
    simp [List.takeWhile_cons, List.dropWhile_cons, h.1, (ih h.2).1, (ih h.2).2]

/-- Appending after a list all of whose elements satisfy the predicate:
takeWhile passes the whole first list, dropWhile discards it. -/
theorem takeWhile_append_of_all (pr : Nat → Bool) :
    ∀ l l2 : List Nat, l.all pr = true →
      (l ++ l2).takeWhile pr = l ++ l2.takeWhile pr ∧
      (l ++ l2).dropWhile pr = l2.dropWhile pr := by
  intro l l2
  induction l with
  | nil => intro _; exact ⟨rfl, rfl⟩
  | cons c cs ih =>
    intro h
    rw [List.all_cons, Bool.and_eq_true] at h
    simp [List.takeWhile_cons, List.dropWhile_cons, h.1, (ih h.2).1, (ih h.2).2]

/-- Appending after a list holding an element that fails the predicate does
not change takeWhile and is carried through by dropWhile. -/
theorem takeWhile_append_of_not_all (pr : Nat → Bool) :
    ∀ l l2 : List Nat, l.all pr = false →
      (l ++ l2).takeWhile pr = l.takeWhile pr ∧
      (l ++ l2).dropWhile pr = l.dropWhile pr ++ l2 := by
  intro l l2
  induction l with
  | nil => intro h; simp at h
  | cons c cs ih =>
    intro h
    rw [List.all_cons] at h
    cases hc : pr c with
    | true =>
      rw [hc, Bool.true_and] at h
      simp [List.takeWhile_cons, List.dropWhile_cons, hc, (ih h).1, (ih h).2]
    | false =>
      simp [List.takeWhile_cons, List.dropWhile_cons, hc]

/-- If some element of the list fails the predicate, dropWhile produces a
nonempty list whose head fails the predicate. -/
theorem dropWhile_head_false (pr : Nat → Bool) :
    ∀ l : List Nat, l.all pr = false →
      ∃ c r, l.dropWhile pr = c :: r ∧ pr c = false := by
  intro l
  induction l with
  | nil => intro h; simp at h
  | cons c cs ih =>
    intro h
    rw [List.all_cons] at h
    cases hc : pr c with
    | true =>
      rw [hc, Bool.true_and] at h
      obtain ⟨c2, r, hr, hp⟩ := ih h
      exact ⟨c2, r, by simp [List.dropWhile_cons, hc, hr], hp⟩
    | false =>
      exact ⟨c, cs, by simp [List.dropWhile_cons, hc], hc⟩

/-- The segment loop on an empty remaining path returns the current entry,
whatever the fuel. -/
theorem pathLoop_nil (m : Metadata) (fuel : Nat) (e : Entry) :
    pathLoop m fuel e [] = .ok (some e) := by
  cases fuel <;> rfl

/-- dropWhile never lengthens a list. -/
theorem length_dropWhile_le (pr : Nat → Bool) :
    ∀ l : List Nat, (l.dropWhile pr).length ≤ l.length := by
  intro l
  induction l with
  | nil => exact Nat.le_refl 0
  | cons c cs ih =>
    cases hc : pr c with
    | true => simp only [List.dropWhile_cons, hc, if_true]; exact Nat.le_succ_of_le ih
    | false => simp [List.dropWhile_cons, hc]

/-- The segment loop does not depend on the fuel as long as the fuel
strictly exceeds the length of the remaining path (which bounds the number
of iterations). -/
theorem pathLoop_fuel (m : Metadata) :
    ∀ f1 f2 : Nat, ∀ (e : Entry) (p : List Nat),
      p.length < f1 → p.length < f2 → pathLoop m f1 e p = pathLoop m f2 e p := by
  intro f1
  induction f1 with
  | zero => intro f2 e p h1 _; exact absurd h1 (Nat.not_lt_zero _)
  | succ f ih =>
    intro f2 e p h1 h2
    cases p with
    | nil => rw [pathLoop_nil, pathLoop_nil]
    | cons c cs =>
      cases f2 with
      | zero => exact absurd h2 (Nat.not_lt_zero _)
      | succ g =>
        cases hdir : m.directories.get? e.inode with
        | none => simp only [pathLoop, hdir]
        | some d =>
          cases hfind : findInDir m d ((c :: cs).takeWhile (fun b => b != 47)) with
          | none => simp only [pathLoop, hdir, hfind]
          | some e2 =>
            cases hr : (c :: cs).dropWhile (fun b => b != 47) with
            | nil => simp only [pathLoop, hdir, hfind, hr]
            | cons c2 rest =>
              simp only [pathLoop, hdir, hfind, hr]
              have hlen := length_dropWhile_le (fun b => b != 47) (c :: cs)
              rw [hr] at hlen
              simp only [List.length_cons] at hlen h1 h2
              exact ih g e2 rest (by omega) (by omega)

/-- Appending one slash byte to a nonempty remaining path that does not end
in a slash does not change the result of the segment loop: the appended
slash is consumed as the final path advance, after which the loop exits. -/
theorem pathLoop_append_slash (m : Metadata) :
    ∀ fuel : Nat, ∀ (e : Entry) (q : List Nat), q ≠ [] → (∀ t, q ≠ t ++ [47]) →
      pathLoop m fuel e (q ++ [47]) = pathLoop m fuel e q := by
  intro fuel
  induction fuel with
  | zero => intro e q _ _; rfl
  | succ f ih =>
    intro e q hne hq
    cases q with
    | nil => exact absurd rfl hne
    | cons c cs =>
      rw [List.cons_append]
      cases hall : (c :: cs).all (fun b => b != 47) with
      | true =>
        have h1 := takeWhile_of_all (fun b => b != 47) (c :: cs) hall
        have h2 := takeWhile_append_of_all (fun b => b != 47) (c :: cs) [47] hall
        rw [List.cons_append] at h2
        have htw : (c :: (cs ++ [47])).takeWhile (fun b => b != 47) =
            (c :: cs).takeWhile (fun b => b != 47) := by
          rw [h2.1, h1.1]
          simp
        have hdw : (c :: (cs ++ [47])).dropWhile (fun b => b != 47) = [47] := by
          rw [h2.2]
          decide
        cases hdir : m.directories.get? e.inode with
        | none => simp only [pathLoop, hdir]
        | some d =>
          cases hfind : findInDir m d ((c :: cs).takeWhile (fun b => b != 47)) with
          | none =>
            simp only [pathLoop, hdir, htw, hfind]
          | some e2 =>
            simp only [pathLoop, hdir, htw, hfind, hdw, h1.2]
            exact pathLoop_nil m f e2
      | false =>
        have h3 := takeWhile_append_of_not_all (fun b => b != 47) (c :: cs) [47] hall
        rw [List.cons_append] at h3
        obtain ⟨c0, r, hr, hc0⟩ := dropWhile_head_false (fun b => b != 47) (c :: cs) hall
        have hc47 : c0 = 47 := by simpa using hc0
        rw [hc47] at hr
        have hdw2 : (c :: (cs ++ [47])).dropWhile (fun b => b != 47) = 47 :: (r ++ [47]) := by
          rw [h3.2, hr]
          rfl
        cases hdir : m.directories.get? e.inode with
        | none => simp only [pathLoop, hdir]
        | some d =>
          cases hfind : findInDir m d ((c :: cs).takeWhile (fun b => b != 47)) with
          | none =>
            simp only [pathLoop, hdir, h3.1, hfind]
          | some e2 =>
            simp only [pathLoop, hdir, h3.1, hfind, hdw2, hr]
            have hdecomp : (c :: cs).takeWhile (fun b => b != 47) ++ (47 :: r) = c :: cs := by
              have hh := List.takeWhile_append_dropWhile (fun b => b != 47) (c :: cs)
              rw [hr] at hh
              exact hh
            have hrne : r ≠ [] := by
              intro h0
              rw [h0] at hdecomp
              exact hq ((c :: cs).takeWhile (fun b => b != 47)) hdecomp.symm
            have hrq : ∀ t, r ≠ t ++ [47] := by
              intro t h0
              apply hq ((c :: cs).takeWhile (fun b => b != 47) ++ (47 :: t))
              conv_lhs => rw [← hdecomp]
              rw [h0]
              simp [List.append_assoc]
            exact ih e2 r hrne hrq

/-- C2 counterexample: on sampleAB, whose path /a/b resolves to the file b,
the path ///a//b/// resolves to "not found": the source skips leading
slashes only; an empty segment arising between or after components is
looked up as the empty name and fails. -/
theorem C2_counterexample :
    findPath sampleAB [47, 97, 47, 98] = .ok (some ⟨2, 1, 2⟩) ∧
    findPath sampleAB [47, 47, 47, 97, 47, 47, 98, 47, 47, 47] = .ok none ∧
    findPath sampleAB [47, 47, 47, 97, 47, 47, 98, 47, 47, 47] ≠
      findPath sampleAB [47, 97, 47, 98] := by
  refine ⟨rfl, rfl, ?_⟩
  intro h
  rw [show findPath sampleAB [47, 47, 47, 97, 47, 47, 98, 47, 47, 47] = .ok none from rfl,
    show findPath sampleAB [47, 97, 47, 98] = .ok (some ⟨2, 1, 2⟩) from rfl] at h
  exact Option.noConfusion (Except.ok.inj h)

/-- C2 amended: find(const char*) ignores any number of leading slash bytes
(prepending a slash never changes the result) and tolerates a single
trailing slash on a path that does not already end in one; but empty
segments between components are not skipped: they are looked up as the
empty name, which fails, as C2_counterexample shows. -/
theorem C2_amended_slashes :
    (∀ (m : Metadata) (p : List Nat), findPath m (47 :: p) = findPath m p) ∧
    (∀ (m : Metadata) (p : List Nat), (∀ t, p ≠ t ++ [47]) →
      findPath m (p ++ [47]) = findPath m p) := by
  constructor
  · intro m p
    rfl
  · intro m p hp
    rcases List.eq_nil_or_concat p with rfl | ⟨t, b, hb⟩
    · rfl
    · rw [List.concat_eq_append] at hb
      have hbne : b ≠ 47 := by
        intro h0
        rw [h0] at hb
        exact hp t hb
      have hnall : p.all (fun b => b == 47) = false := by
        cases hall : p.all (fun b => b == 47) with
        | false => rfl
        | true =>
          exfalso
          have hmem : b ∈ p := by rw [hb]; simp
          have := List.all_eq_true.mp hall b hmem
          exact hbne (by simpa using this)
      have hdw := (takeWhile_append_of_not_all (fun b => b == 47) p [47] hnall).2
      obtain ⟨c0, r, hr, _⟩ := dropWhile_head_false (fun b => b == 47) p hnall
      have hqne : p.dropWhile (fun b => b == 47) ≠ [] := by rw [hr]; simp
      have hqq : ∀ t2, p.dropWhile (fun b => b == 47) ≠ t2 ++ [47] := by
        intro t2 h0
        have hsp := List.takeWhile_append_dropWhile (fun b => b == 47) p
        rw [h0] at hsp
        exact hp (p.takeWhile (fun b => b == 47) ++ t2)
          (by rw [List.append_assoc, hsp])
      unfold findPath
      rw [hdw]
      simp only [List.length_append, List.length_cons, List.length_nil]
      rw [pathLoop_append_slash m _ _ _ hqne hqq]
      exact pathLoop_fuel m _ _ _ _ (by omega) (by omega)

/-- C2 witness: both amended parts of C2_amended_slashes evaluated on
sampleAB with the single-segment path a. -/
theorem C2_amended_witness :
    findPath sampleAB (47 :: [97]) = findPath sampleAB [97] ∧
    findPath sampleAB ([97] ++ [47]) = findPath sampleAB [97] :=
  ⟨C2_amended_slashes.1 sampleAB [97],
   C2_amended_slashes.2 sampleAB [97] (by
    intro t h
    cases t with
    | nil => simp at h
    | cons a as => simp at h)⟩

end DwarfsMeta
